import Mathlib

/-
Verification development for the godfs master server (Go sources:
internal/master/metadata.go and the gRPC FileService server file).

Modelling conventions, chosen to mirror the Go source:
  - Go `time.Time` is modelled as `Nat`; the value 0 plays the role of the
    zero time (`t.IsZero()` becomes `t = 0`).  Calls to `time.Now()` become
    an explicit `now : Nat` argument.
  - Go pointers (`*FileMeta`) are modelled by addresses into an explicit
    heap (`Heap`, a list of `FileMeta` cells).  `stored := *meta` becomes a
    fresh allocation of a copy, `meta.CreatedAt = now` becomes a write to
    the cell the caller passed in.  This keeps the aliasing behaviour of
    the source observable (copy-on-read, in-place mutation of arguments).
  - The Go map `map[string]*FileMeta` is an association list with unique
    keys; map insertion overwrites an existing key in place, otherwise
    appends.  Iteration order of a Go map is unspecified; the association
    list fixes one admissible order.
  - The storage backend (files under `dataDir`) is an association list
    from filename to byte blob (bytes as `Nat`).  `filepath.Join(dataDir,
    filename)` is modelled by the key `filename` itself; `os.Create`
    truncates or creates, `File.Write` appends, `os.Remove` deletes the key
    (a no-op when absent, matching the ignored error in the source).
  - gRPC streams are lists of messages.  `stream.Recv` yielding a
    transport error (neither a message nor `io.EOF`) is modelled by a
    boolean `recvErr` that fires after the listed messages.  I/O failures
    of `os.Create`, `File.Write` and `File.Close` are modelled by explicit
    fault flags so that every error path of the source is reachable.
  - `stream.Send` on the download path is modelled as always succeeding;
    the emitted messages are collected in a list.
-/

deriving instance DecidableEq for Except

/-- Metadata record for one file, from `FileMeta` in metadata.go.
Timestamps are `Nat` (0 = the Go zero time). -/
structure FileMeta where
  Filename : String
  Size : Int
  CreatedAt : Nat
  ModifiedAt : Nat
deriving Repr, DecidableEq, Inhabited

/-- Heap of `FileMeta` cells; an address is an index into `cells`.
This models the Go pointers handed to and returned by the store. -/
structure Heap where
  cells : List FileMeta
deriving Repr, DecidableEq

/-- Allocate a fresh cell holding `v`; returns the new heap and the address. -/
def Heap.alloc (h : Heap) (v : FileMeta) : Heap × Nat :=
  (⟨h.cells ++ [v]⟩, h.cells.length)

/-- Dereference an address (out-of-range reads give the default record;
well-formed states never read out of range). -/
def Heap.read (h : Heap) (a : Nat) : FileMeta :=
  h.cells.getD a default

/-- Assign through a pointer (`*a = v`). -/
def Heap.write (h : Heap) (a : Nat) (v : FileMeta) : Heap :=
  ⟨h.cells.set a v⟩

/-- Errors of the metadata store: `ErrFileNotFound` and
`ErrFileAlreadyExists` in metadata.go. -/
inductive StoreErr where
  | fileNotFound
  | fileAlreadyExists
deriving Repr, DecidableEq

/-- The in-memory metadata store: the Go map `files map[string]*FileMeta`,
as an association list from filename to the heap address of the stored
record.  The `sync.RWMutex` serialises operations; each operation below is
one critical section, so the lock itself needs no model. -/
structure InMemoryMetadataStore where
  files : List (String × Nat)
deriving Repr, DecidableEq

/-- Go map lookup `s.files[filename]`. -/
def lookupFile (s : InMemoryMetadataStore) (filename : String) : Option Nat :=
  (s.files.find? (fun p => p.1 == filename)).map (fun p => p.2)

/-- Go map insertion `files[k] = a`: overwrite the existing key in place,
otherwise append. -/
def mapInsert (l : List (String × Nat)) (k : String) (a : Nat) : List (String × Nat) :=
  if l.any (fun p => p.1 == k) then
    l.map (fun p => if p.1 == k then (k, a) else p)
  else l ++ [(k, a)]

/-- Create from metadata.go: fail with `fileAlreadyExists` if the filename
is present; otherwise fill zero timestamps with `now` (mutating the record
through the caller's pointer, as the source does), then store a copy. -/
def InMemoryMetadataStore.Create (h : Heap) (s : InMemoryMetadataStore)
    (metaAddr : Nat) (now : Nat) :
    Except StoreErr Unit × Heap × InMemoryMetadataStore :=
  let meta := h.read metaAddr
  match lookupFile s meta.Filename with
  | some _ => (.error .fileAlreadyExists, h, s)
  | none =>
    let meta1 : FileMeta :=
      { meta with
        CreatedAt := if meta.CreatedAt = 0 then now else meta.CreatedAt
        ModifiedAt := if meta.ModifiedAt = 0 then now else meta.ModifiedAt }
    let h1 := h.write metaAddr meta1
    let allocated := h1.alloc meta1
    (.ok (), allocated.1, ⟨mapInsert s.files meta1.Filename allocated.2⟩)

/-- Get from metadata.go: fail with `fileNotFound` if absent, otherwise
return (the address of) a freshly allocated copy of the stored record. -/
def InMemoryMetadataStore.Get (h : Heap) (s : InMemoryMetadataStore)
    (filename : String) : Except StoreErr Nat × Heap :=
  match lookupFile s filename with
  | none => (.error .fileNotFound, h)
  | some a =>
    let allocated := h.alloc (h.read a)
    (.ok allocated.2, allocated.1)

/-- Update from metadata.go: fail with `fileNotFound` if absent; otherwise
set `ModifiedAt := now` through the caller's pointer and store a copy of the
caller's (whole) record. -/
def InMemoryMetadataStore.Update (h : Heap) (s : InMemoryMetadataStore)
    (metaAddr : Nat) (now : Nat) :
    Except StoreErr Unit × Heap × InMemoryMetadataStore :=
  let meta := h.read metaAddr
  match lookupFile s meta.Filename with
  | none => (.error .fileNotFound, h, s)
  | some _ =>
    let meta1 : FileMeta := { meta with ModifiedAt := now }
    let h1 := h.write metaAddr meta1
    let allocated := h1.alloc meta1
    (.ok (), allocated.1, ⟨mapInsert s.files meta1.Filename allocated.2⟩)

/-- Delete from metadata.go: fail with `fileNotFound` if absent, otherwise
remove the entry. -/
def InMemoryMetadataStore.Delete (s : InMemoryMetadataStore)
    (filename : String) : Except StoreErr Unit × InMemoryMetadataStore :=
  match lookupFile s filename with
  | none => (.error .fileNotFound, s)
  | some _ => (.ok (), ⟨s.files.filter (fun p => !(p.1 == filename))⟩)

/-- Exists from metadata.go: presence check without copying. -/
def InMemoryMetadataStore.Exists (s : InMemoryMetadataStore)
    (filename : String) : Bool :=
  (lookupFile s filename).isSome

/-- The filter condition of List in metadata.go, transcribed literally:
`prefix == "" || len(filename) >= len(prefix) && filename[:len(prefix)] == prefix`
(Go `&&` binds tighter than `||`). -/
def goPrefixMatch (filename pre : String) : Bool :=
  pre == "" ||
    (decide (pre.data.length ≤ filename.data.length) &&
      filename.data.take pre.data.length == pre.data)

/-- Address lists, named so that the declaration of
`InMemoryMetadataStore.List` can mention the type without clashing with
its own name. -/
abbrev Addrs := List Nat

/-- List from metadata.go: iterate over the map, and for every matching
entry allocate a copy of the stored record; return the copies (their
addresses) and never an error. -/
def InMemoryMetadataStore.List (h : Heap) (s : InMemoryMetadataStore)
    (pre : String) : Except StoreErr Addrs × Heap :=
  let folded := s.files.foldl
    (fun acc p =>
      if goPrefixMatch p.1 pre then
        let allocated := acc.1.alloc (acc.1.read p.2)
        (allocated.1, acc.2 ++ [allocated.2])
      else acc)
    (h, ([] : Addrs))
  (.ok folded.2, folded.1)

/-
The storage backend: the flat directory `dataDir`, keyed by filename.
-/

/-- The storage backend state: filename to blob bytes. -/
abbrev FS := List (String × List Nat)

/-- Blob lookup by filename. -/
def fsLookup (fs : FS) (f : String) : Option (List Nat) :=
  (fs.find? (fun p => p.1 == f)).map (fun p => p.2)

/-- Model of `os.Create`: truncate an existing blob to empty, or create a
new empty blob. -/
def osCreate (fs : FS) (f : String) : FS :=
  if fs.any (fun p => p.1 == f) then
    fs.map (fun p => if p.1 == f then (f, ([] : List Nat)) else p)
  else fs ++ [(f, ([] : List Nat))]

/-- Model of `File.Write` on the file opened under key `f`: append bytes. -/
def fsAppend (fs : FS) (f : String) (d : List Nat) : FS :=
  fs.map (fun p => if p.1 == f then (p.1, p.2 ++ d) else p)

/-- Model of `os.Remove`: drop the key; removing an absent key is a no-op
(the source ignores the error of `os.Remove` on its cleanup paths, and
treats `IsNotExist` as benign in Delete). -/
def fsRemove (fs : FS) (f : String) : FS :=
  fs.filter (fun p => !(p.1 == f))

/-- Model of `filepath.Base` (unix rules, as used by the server to
validate filenames): empty path gives ".", trailing separators are
stripped, the last component is returned, and a path of only separators
gives "/". -/
def pathBase (path : List Char) : List Char :=
  if path = [] then ['.']
  else
    let p1 := (path.reverse.dropWhile (fun c => c == '/')).reverse
    let p2 := (p1.reverse.takeWhile (fun c => !(c == '/'))).reverse
    if p2 = [] then ['/'] else p2

/-
The gRPC FileService server.
-/

/-- Default chunk size for streaming transfers (1MB), from the server file. -/
def defaultChunkSize : Nat := 1024 * 1024

/-- One inbound message of the Upload client stream (`UploadRequest`, a
oneof of metadata and chunk). -/
inductive UploadReq where
  | metadata (filename : String) (size : Int)
  | chunk (data : List Nat)
deriving Repr, DecidableEq

/-- The `UploadResponse` message. -/
structure UploadResponse where
  Success : Bool
  Message : String
  FileId : String
deriving Repr, DecidableEq

/-- The distinct error returns of `Server.Upload`, in source order. -/
inductive UploadErr where
  | recvFailed
  | invalidFilename
  | createFileFailed
  | chunkBeforeMetadata
  | writeChunkFailed
  | closeFailed
  | metadataCreateFailed (e : StoreErr)
deriving Repr, DecidableEq

/-- Injected I/O faults, to reach every error path of `Server.Upload`:
`os.Create` failing, `File.Write` failing at the n-th write call, and
`File.Close` failing. -/
structure Faults where
  createFileFails : Bool
  writeFailsAt : Option Nat
  closeFails : Bool
deriving Repr, DecidableEq

/-- No injected faults: every backend I/O call succeeds. -/
def noFaults : Faults := ⟨false, none, false⟩

/-- The mutable locals of the receive loop of `Server.Upload`: `filename`,
`fileSize`, `file` (the open handle, i.e. the backend key being written),
the backend state, and the number of write calls so far (for fault
injection). -/
structure UploadLoopState where
  filename : String
  fileSize : Int
  file : Option String
  fs : FS
  writes : Nat
deriving Repr, DecidableEq

/-- The receive loop of `Server.Upload`, one constructor per message.  On
error the result carries the backend state after the cleanup the source
performs on that path (note: validation and create failures do not clean
up, matching the source).  Normal end-of-stream (`io.EOF`) exits the loop
with the final locals; `recvErr` makes `Recv` fail after the listed
messages. -/
def uploadLoop (faults : Faults) (recvErr : Bool) :
    List UploadReq → UploadLoopState → Except (UploadErr × FS) UploadLoopState
  | [], st =>
    if recvErr then
      match st.file with
      | some _ => .error (.recvFailed, fsRemove st.fs st.filename)
      | none => .error (.recvFailed, st.fs)
    else .ok st
  | .metadata f sz :: rest, st =>
    let st1 : UploadLoopState := { st with filename := f, fileSize := sz }
    if pathBase f.data = f.data then
      if faults.createFileFails then .error (.createFileFailed, st1.fs)
      else uploadLoop faults recvErr rest
        { st1 with file := some f, fs := osCreate st1.fs f }
    else .error (.invalidFilename, st1.fs)
  | .chunk d :: rest, st =>
    match st.file with
    | none => .error (.chunkBeforeMetadata, st.fs)
    | some fh =>
      if faults.writeFailsAt = some st.writes then
        .error (.writeChunkFailed, fsRemove st.fs st.filename)
      else uploadLoop faults recvErr rest
        { st with fs := fsAppend st.fs fh d, writes := st.writes + 1 }

/-- Server.Upload: run the receive loop, close the file (a close failure
returns without removing the blob, exactly as in the source), then create
the metadata record `FileMeta{Filename: filename, Size: fileSize}` (zero
timestamps); if Create fails the blob is removed and the error returned,
otherwise the success response is sent. -/
def Server.Upload (faults : Faults) (msgs : List UploadReq) (recvErr : Bool)
    (fs : FS) (h : Heap) (s : InMemoryMetadataStore) (now : Nat) :
    Except UploadErr UploadResponse × FS × Heap × InMemoryMetadataStore :=
  match uploadLoop faults recvErr msgs ⟨"", 0, none, fs, 0⟩ with
  | .error (e, fs1) => (.error e, fs1, h, s)
  | .ok st =>
    if st.file.isSome && faults.closeFails then
      (.error .closeFailed, st.fs, h, s)
    else
      let allocated := h.alloc ⟨st.filename, st.fileSize, 0, 0⟩
      match InMemoryMetadataStore.Create allocated.1 s allocated.2 now with
      | (.error e, h2, s2) =>
        (.error (.metadataCreateFailed e), fsRemove st.fs st.filename, h2, s2)
      | (.ok _, h2, s2) =>
        (.ok ⟨true, "File " ++ st.filename ++ " uploaded successfully", st.filename⟩,
          st.fs, h2, s2)

/-- One outbound message of the Download server stream
(`DownloadResponse`, a oneof of metadata and chunk). -/
inductive DownloadMsg where
  | metadata (filename : String) (size : Int)
  | chunk (data : List Nat)
deriving Repr, DecidableEq

/-- The error returns of `Server.Download`. -/
inductive DownloadErr where
  | fileNotFound
  | openFailed
deriving Repr, DecidableEq

/-- Chunked read, fuelled structural version: splits `l` into consecutive
pieces of `n` bytes (last piece possibly shorter).  The fuel is the length
of the list; one read call consumes at least one byte while fuel and bytes
remain. -/
def chunksOfAux (n : Nat) : Nat → List Nat → List (List Nat)
  | _, [] => []
  | 0, _ => []
  | fuel+1, l => l.take n :: chunksOfAux n fuel (l.drop n)

/-- The read loop of `Server.Download`: read the blob `defaultChunkSize`
bytes at a time until end-of-file; a zero-length blob yields no chunks. -/
def chunksOf (n : Nat) (l : List Nat) : List (List Nat) :=
  chunksOfAux n l.length l

/-- Server.Download: resolve the record via Get (`fileNotFound` aborts
before any message is sent), open the blob (absence of the blob makes
`os.Open` fail), then send one metadata message followed by the chunks of
the blob in file order. -/
def Server.Download (filename : String) (fs : FS) (h : Heap)
    (s : InMemoryMetadataStore) :
    Except DownloadErr Unit × List DownloadMsg × Heap :=
  match InMemoryMetadataStore.Get h s filename with
  | (.error _, h1) => (.error .fileNotFound, [], h1)
  | (.ok metaAddr, h1) =>
    match fsLookup fs filename with
    | none => (.error .openFailed, [], h1)
    | some content =>
      let meta := h1.read metaAddr
      (.ok (),
        DownloadMsg.metadata meta.Filename meta.Size ::
          (chunksOf defaultChunkSize content).map DownloadMsg.chunk,
        h1)

/-- The `DeleteResponse` message. -/
structure DeleteResponse where
  Success : Bool
  Message : String
deriving Repr, DecidableEq

/-- Server.Delete: absence (checked via Exists) is a structured
soft-fail response, not an error; otherwise the blob is removed first and
the metadata record second. -/
def Server.Delete (filename : String) (fs : FS) (h : Heap)
    (s : InMemoryMetadataStore) :
    Except String DeleteResponse × FS × Heap × InMemoryMetadataStore :=
  if !(InMemoryMetadataStore.Exists s filename) then
    (.ok ⟨false, "file not found: " ++ filename⟩, fs, h, s)
  else
    let fs1 := fsRemove fs filename
    match InMemoryMetadataStore.Delete s filename with
    | (.error _, s1) => (.error "failed to delete metadata", fs1, h, s1)
    | (.ok _, s1) =>
      (.ok ⟨true, "File " ++ filename ++ " deleted successfully"⟩, fs1, h, s1)

/-- The wire form of a record (`api.FileInfo`); Unix-seconds timestamps
are modelled by the `Nat` time values themselves. -/
structure FileInfo where
  Filename : String
  Size : Int
  CreatedAt : Nat
  ModifiedAt : Nat
deriving Repr, DecidableEq

/-- The `StatResponse` message. -/
structure StatResponse where
  Exists : Bool
  File : Option FileInfo
deriving Repr, DecidableEq

/-- Server.Stat: `fileNotFound` from Get becomes the structured response
with `Exists := false` and no error; a present file is echoed in wire
form. -/
def Server.Stat (filename : String) (h : Heap) (s : InMemoryMetadataStore) :
    Except String StatResponse × Heap :=
  match InMemoryMetadataStore.Get h s filename with
  | (.error _, h1) => (.ok ⟨false, none⟩, h1)
  | (.ok a, h1) =>
    let m := h1.read a
    (.ok ⟨true, some ⟨m.Filename, m.Size, m.CreatedAt, m.ModifiedAt⟩⟩, h1)

/-- Server.List: delegate to the store and translate the record copies to
wire form. -/
def Server.List (pre : String) (h : Heap) (s : InMemoryMetadataStore) :
    Except String (List FileInfo) × Heap :=
  match InMemoryMetadataStore.List h s pre with
  | (.error _, h1) => (.error "failed to list files", h1)
  | (.ok rs, h1) =>
    (.ok (rs.map (fun a =>
      let m := h1.read a
      ⟨m.Filename, m.Size, m.CreatedAt, m.ModifiedAt⟩)), h1)

/-
Derived observations used to state the claims.
-/

/-- Well-formed pair of heap and store: every stored address is a live
cell.  Every state reachable from an empty store is well formed. -/
abbrev StoreWF (h : Heap) (s : InMemoryMetadataStore) : Prop :=
  ∀ p ∈ s.files, p.2 < h.cells.length

/-- The record value a Get returns (dereferencing the returned copy), or
`none` on failure. -/
def getValue (h : Heap) (s : InMemoryMetadataStore) (filename : String) :
    Option FileMeta :=
  match InMemoryMetadataStore.Get h s filename with
  | (.ok a, h1) => some (h1.read a)
  | (.error _, _) => none

/-- The record values a List returns (dereferencing the returned copies). -/
def listValues (h : Heap) (s : InMemoryMetadataStore) (pre : String) :
    List FileMeta :=
  match InMemoryMetadataStore.List h s pre with
  | (.ok rs, h1) => rs.map h1.read
  | (.error _, _) => []

/-- The bytes a download stream carries: the chunk payloads concatenated
in order. -/
def downloadBytes (msgs : List DownloadMsg) : List Nat :=
  (msgs.filterMap (fun m =>
    match m with
    | .chunk d => some d
    | .metadata _ _ => none)).flatten

/-- The record value Create stores: the caller record with zero timestamps
replaced by `now` (as in the source). -/
def fillTimes (m : FileMeta) (now : Nat) : FileMeta :=
  { m with
    CreatedAt := if m.CreatedAt = 0 then now else m.CreatedAt
    ModifiedAt := if m.ModifiedAt = 0 then now else m.ModifiedAt }

/-- The fold inside `InMemoryMetadataStore.List`, named for the lemmas
below. -/
def listFold (pre : String) (files : List (String × Nat)) (h : Heap)
    (acc : Addrs) : Heap × Addrs :=
  files.foldl
    (fun acc2 p =>
      if goPrefixMatch p.1 pre then
        let allocated := acc2.1.alloc (acc2.1.read p.2)
        (allocated.1, acc2.2 ++ [allocated.2])
      else acc2)
    (h, acc)

/-- C3 scenario: Create stores the record with createdAt assigned 10; a
later Update passes a caller record carrying createdAt 99. -/
def c3Heap : Heap := ⟨[⟨"f", 1, 0, 0⟩, ⟨"f", 1, 99, 0⟩]⟩

/-- First step of the C3 scenario: Create at time 10 through address 0. -/
def c3AfterCreate := InMemoryMetadataStore.Create c3Heap ⟨[]⟩ 0 10

/-- Second step of the C3 scenario: Update at time 20 through address 1. -/
def c3AfterUpdate :=
  InMemoryMetadataStore.Update c3AfterCreate.2.1 c3AfterCreate.2.2 1 20

/-- C1 scenario: the client declares size 5 but sends only the three
bytes 1, 2, 3. -/
def c1run := Server.Upload noFaults
  [UploadReq.metadata "a" 5, UploadReq.chunk [1, 2, 3]] false [] ⟨[]⟩ ⟨[]⟩ 7

/-- C2 scenario: a one-chunk upload whose File.Close call fails. -/
def c2run := Server.Upload ⟨false, none, true⟩
  [UploadReq.metadata "a" 1, UploadReq.chunk [7]] false [] ⟨[]⟩ ⟨[]⟩ 0

/-
Basic facts about the heap and the association lists.
-/

theorem Heap.read_concat (l : List FileMeta) (v : FileMeta) :
    Heap.read ⟨l ++ [v]⟩ l.length = v := by
  simp only [Heap.read]
  rw [List.getD_append_right] <;> simp

theorem Heap.read_append_of_lt (l l2 : List FileMeta) (a : Nat)
    (ha : a < l.length) : Heap.read ⟨l ++ l2⟩ a = Heap.read ⟨l⟩ a := by
  show (l ++ l2).getD a default = l.getD a default
  exact List.getD_append l l2 default a ha

theorem Heap.read_write_ne (h : Heap) (r a : Nat) (v : FileMeta)
    (hne : a ≠ r) : (h.write r v).read a = h.read a := by
  simp [Heap.read, Heap.write, List.getD_eq_getElem?_getD,
    List.getElem?_set_ne (Ne.symm hne)]

theorem set_concat_self (l : List FileMeta) (v w : FileMeta) :
    (l ++ [v]).set l.length w = l ++ [w] := by
  rw [List.set_append_right]
  · simp
  · omega

theorem find?_of_lookupFile_none (s : InMemoryMetadataStore) (f : String)
    (hnone : lookupFile s f = none) :
    s.files.find? (fun p => p.1 == f) = none := by
  unfold lookupFile at hnone
  cases hf : s.files.find? (fun p => p.1 == f) <;> simp [hf] at hnone ⊢

theorem find?_map_overwrite {β : Type} (f : String) (b : β) :
    ∀ (l : List (String × β)), l.any (fun p => p.1 == f) = true →
      (l.map (fun p => if p.1 == f then (f, b) else p)).find?
        (fun p => p.1 == f) = some (f, b) := by
  intro l
  induction l with
  | nil => intro hany; simp at hany
  | cons p t ih =>
    intro hany
    by_cases hp : (p.1 == f) = true
    · simp [List.find?, hp]
    · have ht : t.any (fun p => p.1 == f) = true := by
        simp only [List.any_cons] at hany
        rw [Bool.eq_false_iff.mpr hp] at hany
        simpa using hany
      simp only [List.map_cons, if_neg hp]
      have hstep : List.find? (fun q => q.1 == f)
          (p :: t.map (fun p => if p.1 == f then (f, b) else p)) =
          List.find? (fun q => q.1 == f)
            (t.map (fun p => if p.1 == f then (f, b) else p)) := by
        simp only [List.find?]
        rw [Bool.eq_false_iff.mpr hp]
      rw [hstep]
      exact ih ht

theorem find?_append_of_none {β : Type} (f : String) (b : β)
    (l : List (String × β))
    (hnone : l.find? (fun p => p.1 == f) = none) :
    (l ++ [(f, b)]).find? (fun p => p.1 == f) = some (f, b) := by
  induction l with
  | nil => simp
  | cons p t ih =>
    by_cases hp : (p.1 == f) = true
    · exfalso
      have : List.find? (fun q => q.1 == f) (p :: t) = some p := by
        simp [List.find?, hp]
      rw [this] at hnone
      exact Option.noConfusion hnone
    · have hstep : List.find? (fun q => q.1 == f) (p :: t) =
          List.find? (fun q => q.1 == f) t := by
        simp only [List.find?]
        rw [Bool.eq_false_iff.mpr hp]
      rw [hstep] at hnone
      rw [List.cons_append]
      have hstep2 : List.find? (fun q => q.1 == f) (p :: (t ++ [(f, b)])) =
          List.find? (fun q => q.1 == f) (t ++ [(f, b)]) := by
        simp only [List.find?]
        rw [Bool.eq_false_iff.mpr hp]
      rw [hstep2]
      exact ih hnone

theorem lookupFile_mapInsert_self (l : List (String × Nat)) (f : String)
    (a : Nat) : lookupFile ⟨mapInsert l f a⟩ f = some a := by
  unfold lookupFile mapInsert
  by_cases hany : l.any (fun p => p.1 == f) = true
  · rw [if_pos hany, find?_map_overwrite f a l hany]
    simp
  · rw [if_neg hany]
    have hnone : l.find? (fun p => p.1 == f) = none := by
      rw [List.find?_eq_none]
      exact List.any_eq_false.mp (Bool.eq_false_iff.mpr hany)
    rw [find?_append_of_none f a l hnone]
    simp

theorem fsLookup_osCreate_self (fs : FS) (f : String) :
    fsLookup (osCreate fs f) f = some [] := by
  unfold fsLookup osCreate
  by_cases hany : fs.any (fun p => p.1 == f) = true
  · rw [if_pos hany, find?_map_overwrite f [] fs hany]
    simp
  · rw [if_neg hany]
    have hnone : fs.find? (fun p => p.1 == f) = none := by
      rw [List.find?_eq_none]
      exact List.any_eq_false.mp (Bool.eq_false_iff.mpr hany)
    rw [find?_append_of_none f [] fs hnone]
    simp

theorem fsLookup_fsAppend_self (fs : FS) (f : String) (d : List Nat) :
    fsLookup (fsAppend fs f d) f = (fsLookup fs f).map (fun c => c ++ d) := by
  unfold fsLookup fsAppend
  induction fs with
  | nil => simp
  | cons p t ih =>
    by_cases hp : (p.1 == f) = true
    · have hpf : p.1 = f := by simpa using hp
      simp [List.find?_cons_of_pos, hp, hpf]
    · simp only [List.map_cons, if_neg hp]
      rw [List.find?_cons_of_neg _ (by simpa using hp),
        List.find?_cons_of_neg _ (by simpa using hp)]
      exact ih

theorem fsLookup_fsRemove_self (fs : FS) (f : String) :
    fsLookup (fsRemove fs f) f = none := by
  unfold fsLookup fsRemove
  have : (fs.filter (fun p => !(p.1 == f))).find? (fun p => p.1 == f) = none := by
    rw [List.find?_eq_none]
    intro x hx
    have := List.of_mem_filter hx
    simpa using this
  simp [this]

theorem fsLookup_foldl_fsAppend (f : String) :
    ∀ (cs : List (List Nat)) (fs : FS),
      fsLookup (cs.foldl (fun a c => fsAppend a f c) fs) f
        = (fsLookup fs f).map (fun c => c ++ cs.flatten) := by
  intro cs
  induction cs with
  | nil =>
    intro fs
    cases hfs : fsLookup fs f <;> simp [hfs]
  | cons c t ih =>
    intro fs
    simp only [List.foldl_cons]
    rw [ih, fsLookup_fsAppend_self]
    cases hfs : fsLookup fs f <;> simp [hfs, List.append_assoc]

/-
Characterisations of the store operations.
-/


theorem Create_of_absent (h : Heap) (s : InMemoryMetadataStore)
    (metaAddr now : Nat)
    (habs : lookupFile s (h.read metaAddr).Filename = none) :
    InMemoryMetadataStore.Create h s metaAddr now =
      (.ok (),
       ⟨h.cells.set metaAddr (fillTimes (h.read metaAddr) now) ++
         [fillTimes (h.read metaAddr) now]⟩,
       ⟨mapInsert s.files (h.read metaAddr).Filename h.cells.length⟩) := by
  unfold InMemoryMetadataStore.Create
  simp only [habs]
  simp [Heap.write, Heap.alloc, fillTimes, List.length_set]

theorem Create_of_present (h : Heap) (s : InMemoryMetadataStore)
    (metaAddr now a : Nat)
    (hpres : lookupFile s (h.read metaAddr).Filename = some a) :
    InMemoryMetadataStore.Create h s metaAddr now =
      (.error .fileAlreadyExists, h, s) := by
  unfold InMemoryMetadataStore.Create
  simp only [hpres]

theorem Update_of_present (h : Heap) (s : InMemoryMetadataStore)
    (metaAddr now a : Nat)
    (hpres : lookupFile s (h.read metaAddr).Filename = some a) :
    InMemoryMetadataStore.Update h s metaAddr now =
      (.ok (),
       ⟨h.cells.set metaAddr { h.read metaAddr with ModifiedAt := now } ++
         [{ h.read metaAddr with ModifiedAt := now }]⟩,
       ⟨mapInsert s.files (h.read metaAddr).Filename h.cells.length⟩) := by
  unfold InMemoryMetadataStore.Update
  simp only [hpres]
  simp [Heap.write, Heap.alloc, List.length_set]

theorem Get_of_present (h : Heap) (s : InMemoryMetadataStore) (f : String)
    (a : Nat) (hpres : lookupFile s f = some a) :
    InMemoryMetadataStore.Get h s f =
      (.ok h.cells.length, ⟨h.cells ++ [h.read a]⟩) := by
  unfold InMemoryMetadataStore.Get
  simp only [hpres]
  simp [Heap.alloc]

theorem Get_of_absent (h : Heap) (s : InMemoryMetadataStore) (f : String)
    (habs : lookupFile s f = none) :
    InMemoryMetadataStore.Get h s f = (.error .fileNotFound, h) := by
  unfold InMemoryMetadataStore.Get
  simp only [habs]

theorem getValue_of_present (h : Heap) (s : InMemoryMetadataStore)
    (f : String) (a : Nat) (hpres : lookupFile s f = some a) :
    getValue h s f = some (h.read a) := by
  unfold getValue
  rw [Get_of_present h s f a hpres]
  show some (Heap.read ⟨h.cells ++ [h.read a]⟩ h.cells.length) = some (h.read a)
  rw [Heap.read_concat]

theorem getValue_of_absent (h : Heap) (s : InMemoryMetadataStore)
    (f : String) (habs : lookupFile s f = none) :
    getValue h s f = none := by
  unfold getValue
  rw [Get_of_absent h s f habs]

/-
Behaviour of the Upload receive loop on chunk streams.
-/

theorem uploadLoop_chunks_ok (faults : Faults)
    (hwf : faults.writeFailsAt = none) :
    ∀ (cs : List (List Nat)) (st : UploadLoopState) (fh : String),
      st.file = some fh →
      ∃ w, uploadLoop faults false (cs.map UploadReq.chunk) st =
        .ok ⟨st.filename, st.fileSize, st.file,
          cs.foldl (fun a c => fsAppend a fh c) st.fs, w⟩ := by
  intro cs
  induction cs with
  | nil =>
    intro st fh hfile
    exact ⟨st.writes, rfl⟩
  | cons c t ih =>
    intro st fh hfile
    obtain ⟨w, hw⟩ :=
      ih ⟨st.filename, st.fileSize, some fh, fsAppend st.fs fh c, st.writes + 1⟩ fh rfl
    refine ⟨w, ?_⟩
    simp only [List.map_cons, uploadLoop, hfile, hwf]
    simp only [reduceCtorEq, if_false, List.foldl_cons]
    simpa [hfile] using hw

theorem uploadLoop_chunks_err (faults : Faults) (recvErr : Bool) :
    ∀ (cs : List (List Nat)) (st : UploadLoopState) (e : UploadErr) (fs1 : FS),
      st.file = some st.filename →
      uploadLoop faults recvErr (cs.map UploadReq.chunk) st = .error (e, fs1) →
      fsLookup fs1 st.filename = none := by
  intro cs
  induction cs with
  | nil =>
    intro st e fs1 hfile hrun
    cases hR : recvErr with
    | false =>
      subst hR
      simp only [List.map_nil, uploadLoop, if_false, Bool.false_eq_true] at hrun
      exact Except.noConfusion hrun
    | true =>
      subst hR
      simp only [List.map_nil, uploadLoop, hfile, if_true] at hrun
      simp only [Except.error.injEq, Prod.mk.injEq] at hrun
      rw [← hrun.2]
      exact fsLookup_fsRemove_self _ _
  | cons c t ih =>
    intro st e fs1 hfile hrun
    simp only [List.map_cons, uploadLoop, hfile] at hrun
    by_cases hw : faults.writeFailsAt = some st.writes
    · rw [if_pos hw] at hrun
      simp only [Except.error.injEq, Prod.mk.injEq] at hrun
      rw [← hrun.2]
      exact fsLookup_fsRemove_self _ _
    · rw [if_neg hw] at hrun
      exact ih ⟨st.filename, st.fileSize, some st.filename, fsAppend st.fs st.filename c, st.writes + 1⟩ e fs1 rfl hrun

theorem uploadLoop_chunks_preserves (faults : Faults) (recvErr : Bool) :
    ∀ (cs : List (List Nat)) (st st' : UploadLoopState),
      uploadLoop faults recvErr (cs.map UploadReq.chunk) st = .ok st' →
      st'.filename = st.filename ∧ st'.file = st.file := by
  intro cs
  induction cs with
  | nil =>
    intro st st' hrun
    cases hR : recvErr with
    | false =>
      subst hR
      simp only [List.map_nil, uploadLoop, if_false, Bool.false_eq_true,
        Except.ok.injEq] at hrun
      rw [← hrun]
      exact ⟨rfl, rfl⟩
    | true =>
      subst hR
      simp only [List.map_nil, uploadLoop, if_true] at hrun
      cases hfile : st.file <;> simp only [hfile] at hrun <;>
        exact Except.noConfusion hrun
  | cons c t ih =>
    intro st st' hrun
    simp only [List.map_cons, uploadLoop] at hrun
    cases hfile : st.file with
    | none =>
      simp only [hfile] at hrun
      exact Except.noConfusion hrun
    | some fh =>
      simp only [hfile] at hrun
      by_cases hw : faults.writeFailsAt = some st.writes
      · rw [if_pos hw] at hrun
        exact Except.noConfusion hrun
      · rw [if_neg hw] at hrun
        have h2 := ih _ st' hrun
        exact ⟨h2.1, h2.2⟩

/-
End-to-end characterisations of Upload and Download.
-/

theorem Upload_ok (f : String) (sz : Int) (cs : List (List Nat)) (fs : FS)
    (h : Heap) (s : InMemoryMetadataStore) (now : Nat)
    (hvalid : pathBase f.data = f.data)
    (hfresh : lookupFile s f = none) :
    Server.Upload noFaults (UploadReq.metadata f sz :: cs.map UploadReq.chunk)
        false fs h s now =
      (.ok ⟨true, "File " ++ f ++ " uploaded successfully", f⟩,
       cs.foldl (fun a c => fsAppend a f c) (osCreate fs f),
       ⟨h.cells ++ [⟨f, sz, now, now⟩, ⟨f, sz, now, now⟩]⟩,
       ⟨mapInsert s.files f (h.cells.length + 1)⟩) := by
  obtain ⟨w, hw⟩ := uploadLoop_chunks_ok noFaults rfl cs
    ⟨f, sz, some f, osCreate fs f, 0⟩ f rfl
  unfold Server.Upload
  simp only [uploadLoop, if_pos hvalid,
    show noFaults.createFileFails = false from rfl]
  simp only [Bool.false_eq_true, if_false]
  rw [hw]
  simp only [Option.isSome_some, Bool.true_and, Bool.false_eq_true, if_false,
    Heap.alloc]
  simp only [show noFaults.closeFails = false from rfl, Bool.false_eq_true,
    if_false]
  have hread : Heap.read ⟨h.cells ++ [⟨f, sz, 0, 0⟩]⟩ h.cells.length =
      ⟨f, sz, 0, 0⟩ := Heap.read_concat h.cells ⟨f, sz, 0, 0⟩
  have habs2 : lookupFile s
      (Heap.read ⟨h.cells ++ [⟨f, sz, 0, 0⟩]⟩ h.cells.length).Filename = none := by
    rw [hread]
    exact hfresh
  have hcr := Create_of_absent ⟨h.cells ++ [⟨f, sz, 0, 0⟩]⟩ s h.cells.length now habs2
  rw [hcr]
  simp [hread, fillTimes, set_concat_self]

theorem Upload_err_clean (faults : Faults) (recvErr : Bool) (f : String)
    (sz : Int) (cs : List (List Nat)) (fs : FS) (h : Heap)
    (s : InMemoryMetadataStore) (now : Nat) (e : UploadErr)
    (fs1 : FS) (h1 : Heap) (s1 : InMemoryMetadataStore)
    (hvalid : pathBase f.data = f.data)
    (hcreate : faults.createFileFails = false)
    (hclose : faults.closeFails = false)
    (hrun : Server.Upload faults (UploadReq.metadata f sz :: cs.map UploadReq.chunk)
        recvErr fs h s now = (.error e, fs1, h1, s1)) :
    fsLookup fs1 f = none ∧ s1 = s := by
  unfold Server.Upload at hrun
  simp only [uploadLoop, if_pos hvalid, hcreate] at hrun
  simp only [Bool.false_eq_true, if_false] at hrun
  cases hloop : uploadLoop faults recvErr (cs.map UploadReq.chunk)
      ⟨f, sz, some f, osCreate fs f, 0⟩ with
  | error p =>
    obtain ⟨e2, fs2⟩ := p
    rw [hloop] at hrun
    simp only [Prod.mk.injEq, Except.error.injEq] at hrun
    obtain ⟨-, h2, -, h4⟩ := hrun
    refine ⟨?_, h4.symm⟩
    rw [← h2]
    exact uploadLoop_chunks_err faults recvErr cs
      ⟨f, sz, some f, osCreate fs f, 0⟩ e2 fs2 rfl hloop
  | ok st =>
    rw [hloop] at hrun
    obtain ⟨hname, hfile⟩ := uploadLoop_chunks_preserves faults recvErr cs
      ⟨f, sz, some f, osCreate fs f, 0⟩ st hloop
    simp only [hfile, Option.isSome_some, Bool.true_and, hclose,
      Bool.false_eq_true, if_false, Heap.alloc] at hrun
    cases hcr : InMemoryMetadataStore.Create ⟨h.cells ++ [⟨st.filename, st.fileSize, 0, 0⟩]⟩
        s h.cells.length now with
    | mk res rest =>
      obtain ⟨h2, s2⟩ := rest
      rw [hcr] at hrun
      cases res with
      | ok u =>
        simp at hrun
      | error e3 =>
        simp only [Prod.mk.injEq, Except.error.injEq] at hrun
        obtain ⟨-, hfs, -, hs⟩ := hrun
        have hcrs : s2 = s := by
          have hread : Heap.read ⟨h.cells ++ [⟨st.filename, st.fileSize, 0, 0⟩]⟩
              h.cells.length = ⟨st.filename, st.fileSize, 0, 0⟩ :=
            Heap.read_concat h.cells ⟨st.filename, st.fileSize, 0, 0⟩
          cases hlook : lookupFile s st.filename with
          | none =>
            have := Create_of_absent ⟨h.cells ++ [⟨st.filename, st.fileSize, 0, 0⟩]⟩
              s h.cells.length now (by rw [hread]; exact hlook)
            rw [this] at hcr
            simp at hcr
          | some a =>
            have := Create_of_present ⟨h.cells ++ [⟨st.filename, st.fileSize, 0, 0⟩]⟩
              s h.cells.length now a (by rw [hread]; exact hlook)
            rw [this] at hcr
            simp only [Prod.mk.injEq] at hcr
            exact hcr.2.2.symm
        refine ⟨?_, by rw [← hs, hcrs]⟩
        rw [← hfs, hname]
        exact fsLookup_fsRemove_self st.fs f

theorem Download_found (f : String) (content : List Nat) (fs : FS) (h : Heap)
    (s : InMemoryMetadataStore) (a : Nat)
    (hpres : lookupFile s f = some a) (hfs : fsLookup fs f = some content) :
    Server.Download f fs h s =
      (.ok (),
       DownloadMsg.metadata (h.read a).Filename (h.read a).Size ::
         (chunksOf defaultChunkSize content).map DownloadMsg.chunk,
       ⟨h.cells ++ [h.read a]⟩) := by
  unfold Server.Download
  rw [Get_of_present h s f a hpres]
  simp [hfs, Heap.read_concat]

theorem Download_absent (f : String) (fs : FS) (h : Heap)
    (s : InMemoryMetadataStore) (habs : lookupFile s f = none) :
    Server.Download f fs h s = (.error .fileNotFound, [], h) := by
  unfold Server.Download
  rw [Get_of_absent h s f habs]

theorem Stat_absent (f : String) (h : Heap) (s : InMemoryMetadataStore)
    (habs : lookupFile s f = none) :
    Server.Stat f h s = (.ok ⟨false, none⟩, h) := by
  unfold Server.Stat
  rw [Get_of_absent h s f habs]

theorem Delete_absent (f : String) (fs : FS) (h : Heap)
    (s : InMemoryMetadataStore) (habs : lookupFile s f = none) :
    Server.Delete f fs h s =
      (.ok ⟨false, "file not found: " ++ f⟩, fs, h, s) := by
  unfold Server.Delete
  have hex : InMemoryMetadataStore.Exists s f = false := by
    unfold InMemoryMetadataStore.Exists
    rw [habs]
    rfl
  rw [hex]
  simp

theorem chunksOfAux_flatten (n : Nat) (hn : n ≠ 0) :
    ∀ (fuel : Nat) (l : List Nat), l.length ≤ fuel →
      (chunksOfAux n fuel l).flatten = l := by
  intro fuel
  induction fuel with
  | zero =>
    intro l hl
    cases l with
    | nil => rfl
    | cons a as => simp at hl
  | succ fuel ih =>
    intro l hl
    cases l with
    | nil => rfl
    | cons a as =>
      simp only [chunksOfAux, List.flatten_cons]
      rw [ih]
      · exact List.take_append_drop n (a :: as)
      · simp only [List.length_drop]
        omega

theorem chunksOf_flatten (n : Nat) (hn : n ≠ 0) (l : List Nat) :
    (chunksOf n l).flatten = l :=
  chunksOfAux_flatten n hn l.length l le_rfl

/-
The List operation: characterising the returned copies.
-/


theorem List_eq_listFold (h : Heap) (s : InMemoryMetadataStore)
    (pre : String) :
    InMemoryMetadataStore.List h s pre =
      (.ok (listFold pre s.files h []).2, (listFold pre s.files h []).1) := rfl

theorem listFold_spec (pre : String) :
    ∀ (files : List (String × Nat)) (h : Heap) (acc : Addrs),
      (∀ p ∈ files, p.2 < h.cells.length) →
      (∀ a ∈ acc, a < h.cells.length) →
      (h.cells.length ≤ (listFold pre files h acc).1.cells.length) ∧
      (∀ i, i < h.cells.length →
        (listFold pre files h acc).1.read i = h.read i) ∧
      (∀ a ∈ (listFold pre files h acc).2, a ∈ acc ∨ h.cells.length ≤ a) ∧
      (∀ a ∈ (listFold pre files h acc).2,
        a < (listFold pre files h acc).1.cells.length) ∧
      ((listFold pre files h acc).2.map (listFold pre files h acc).1.read =
        acc.map h.read ++
          (files.filter (fun p => goPrefixMatch p.1 pre)).map
            (fun p => h.read p.2)) := by
  intro files
  induction files with
  | nil =>
    intro h acc hW hA
    refine ⟨le_rfl, fun i _ => rfl, fun a ha => Or.inl ha,
      fun a ha => hA a ha, ?_⟩
    simp [listFold]
  | cons p t ih =>
    intro h acc hW hA
    by_cases hm : goPrefixMatch p.1 pre = true
    · have hstep : listFold pre (p :: t) h acc =
          listFold pre t ⟨h.cells ++ [h.read p.2]⟩ (acc ++ [h.cells.length]) := by
        simp [listFold, List.foldl_cons, hm, Heap.alloc]
      rw [hstep]
      have hlen2 : (⟨h.cells ++ [h.read p.2]⟩ : Heap).cells.length =
          h.cells.length + 1 := by simp
      have hW2 : ∀ q ∈ t, q.2 < (⟨h.cells ++ [h.read p.2]⟩ : Heap).cells.length := by
        intro q hq
        rw [hlen2]
        exact Nat.lt_succ_of_lt (hW q (List.mem_cons_of_mem p hq))
      have hA2 : ∀ a ∈ acc ++ [h.cells.length],
          a < (⟨h.cells ++ [h.read p.2]⟩ : Heap).cells.length := by
        intro a ha
        rw [hlen2]
        rcases List.mem_append.mp ha with h1 | h1
        · exact Nat.lt_succ_of_lt (hA a h1)
        · simp at h1
          omega
      obtain ⟨ih1, ih2, ih3, ih4, ih5⟩ :=
        ih ⟨h.cells ++ [h.read p.2]⟩ (acc ++ [h.cells.length]) hW2 hA2
      refine ⟨?_, ?_, ?_, ?_, ?_⟩
      · rw [hlen2] at ih1
        omega
      · intro i hi
        rw [ih2 i (by rw [hlen2]; omega)]
        exact Heap.read_append_of_lt h.cells [h.read p.2] i hi
      · intro a ha
        rcases ih3 a ha with h1 | h1
        · rcases List.mem_append.mp h1 with h2 | h2
          · exact Or.inl h2
          · simp at h2
            right
            omega
        · rw [hlen2] at h1
          right
          omega
      · exact ih4
      · rw [ih5, List.filter_cons, if_pos hm]
        rw [List.map_append, List.map_cons]
        have e1 : acc.map (⟨h.cells ++ [h.read p.2]⟩ : Heap).read =
            acc.map h.read :=
          List.map_congr_left
            (fun a ha => Heap.read_append_of_lt h.cells [h.read p.2] a (hA a ha))
        have e3 : (t.filter (fun q => goPrefixMatch q.1 pre)).map
              (fun q => (⟨h.cells ++ [h.read p.2]⟩ : Heap).read q.2) =
            (t.filter (fun q => goPrefixMatch q.1 pre)).map
              (fun q => h.read q.2) :=
          List.map_congr_left (fun q hq =>
            Heap.read_append_of_lt h.cells [h.read p.2] q.2
              (hW q (List.mem_cons_of_mem p (List.mem_of_mem_filter hq))))
        rw [e1, e3, Heap.read_concat]
        simp
    · have hstep : listFold pre (p :: t) h acc = listFold pre t h acc := by
        simp [listFold, List.foldl_cons, hm]
      rw [hstep]
      obtain ⟨ih1, ih2, ih3, ih4, ih5⟩ :=
        ih h acc (fun q hq => hW q (List.mem_cons_of_mem p hq)) hA
      refine ⟨ih1, ih2, ih3, ih4, ?_⟩
      rw [ih5, List.filter_cons, if_neg hm]

theorem lookupFile_mem (s : InMemoryMetadataStore) (g : String) (a : Nat)
    (hl : lookupFile s g = some a) : ∃ p ∈ s.files, p.2 = a := by
  unfold lookupFile at hl
  cases hf : s.files.find? (fun p => p.1 == g) with
  | none =>
    rw [hf] at hl
    simp at hl
  | some p =>
    rw [hf] at hl
    simp at hl
    exact ⟨p, List.mem_of_find?_eq_some hf, hl⟩

theorem StoreWF_write (h : Heap) (s : InMemoryMetadataStore) (r : Nat)
    (v : FileMeta) (hWF : StoreWF h s) : StoreWF (h.write r v) s := by
  intro p hp
  show p.2 < (h.cells.set r v).length
  rw [List.length_set]
  exact hWF p hp

theorem list_values_spec (h : Heap) (s : InMemoryMetadataStore) (pre : String)
    (hWF : StoreWF h s) :
    listValues h s pre =
      (s.files.filter (fun p => goPrefixMatch p.1 pre)).map
        (fun p => h.read p.2) := by
  unfold listValues
  rw [List_eq_listFold]
  obtain ⟨-, -, -, -, h5⟩ := listFold_spec pre s.files h [] hWF (by simp)
  simpa using h5

theorem getValue_write_fresh (h : Heap) (s : InMemoryMetadataStore) (r : Nat)
    (v : FileMeta) (hfresh : ∀ p ∈ s.files, p.2 ≠ r) (g : String) :
    getValue (h.write r v) s g = getValue h s g := by
  cases hlook : lookupFile s g with
  | none =>
    rw [getValue_of_absent _ _ _ hlook, getValue_of_absent _ _ _ hlook]
  | some a =>
    rw [getValue_of_present _ _ _ _ hlook, getValue_of_present _ _ _ _ hlook]
    obtain ⟨p, hp, hpa⟩ := lookupFile_mem s g a hlook
    rw [Heap.read_write_ne h r a v (hpa ▸ hfresh p hp)]

theorem listValues_write_fresh (h : Heap) (s : InMemoryMetadataStore)
    (r : Nat) (v : FileMeta) (pre2 : String) (hWF : StoreWF h s)
    (hfresh : ∀ p ∈ s.files, p.2 ≠ r) :
    listValues (h.write r v) s pre2 = listValues h s pre2 := by
  rw [list_values_spec _ _ _ (StoreWF_write h s r v hWF),
    list_values_spec _ _ _ hWF]
  exact List.map_congr_left (fun p hp =>
    Heap.read_write_ne h r p.2 v (hfresh p (List.mem_of_mem_filter hp)))

/-
Additional helpers: the prefix condition, a few heap reads, and the bytes
of a download stream.
-/

theorem goPrefixMatch_eq_isPrefixOf (f pre : String) :
    goPrefixMatch f pre = pre.data.isPrefixOf f.data := by
  rw [Bool.eq_iff_iff]
  unfold goPrefixMatch
  simp only [Bool.or_eq_true, Bool.and_eq_true, decide_eq_true_eq, beq_iff_eq,
    List.isPrefixOf_iff_prefix]
  constructor
  · rintro (hempty | ⟨hlen, htake⟩)
    · have hd : pre.data = [] := by rw [hempty]
      rw [hd]
      exact List.nil_prefix
    · exact List.prefix_iff_eq_take.mpr htake.symm
  · intro hp
    by_cases hpre : pre = ""
    · exact Or.inl hpre
    · exact Or.inr ⟨hp.length_le, (List.prefix_iff_eq_take.mp hp).symm⟩

theorem Heap.read_write_self (h : Heap) (r : Nat) (v : FileMeta)
    (hr : r < h.cells.length) : (h.write r v).read r = v := by
  show (h.cells.set r v).getD r default = v
  simp [List.getD_eq_getElem?_getD, List.getElem?_set_self, hr]

theorem Heap.read_concat2 (l : List FileMeta) (v w : FileMeta) :
    Heap.read ⟨l ++ [v, w]⟩ (l.length + 1) = w := by
  have h1 : l ++ [v, w] = (l ++ [v]) ++ [w] := by simp
  have h2 : l.length + 1 = (l ++ [v]).length := by simp
  rw [h1, h2]
  exact Heap.read_concat (l ++ [v]) w

theorem downloadBytes_msgs (fn : String) (sz : Int) (l : List (List Nat)) :
    downloadBytes (DownloadMsg.metadata fn sz :: l.map DownloadMsg.chunk) =
      l.flatten := by
  unfold downloadBytes
  simp only [List.filterMap_cons, List.filterMap_map]
  have : (fun m => match m with
      | DownloadMsg.chunk d => some d
      | DownloadMsg.metadata _ _ => none) ∘ DownloadMsg.chunk =
      fun d => some d := rfl
  rw [this]
  simp [List.filterMap_some]

/-
Claim theorems.
-/

/-- C5: for a filename not present in the store, Create succeeds and a
subsequent Get returns the record that was stored, with zero (unset)
timestamps assigned to the current time; for a filename already present,
Create fails with AlreadyExists and leaves heap and store (hence the
stored record) unchanged. -/
theorem create_get_semantics (h : Heap) (s : InMemoryMetadataStore)
    (metaAddr now : Nat) :
    (lookupFile s (h.read metaAddr).Filename = none →
      (InMemoryMetadataStore.Create h s metaAddr now).1 = .ok () ∧
      getValue (InMemoryMetadataStore.Create h s metaAddr now).2.1
          (InMemoryMetadataStore.Create h s metaAddr now).2.2
          (h.read metaAddr).Filename =
        some (fillTimes (h.read metaAddr) now)) ∧
    (∀ a, lookupFile s (h.read metaAddr).Filename = some a →
      InMemoryMetadataStore.Create h s metaAddr now =
        (.error .fileAlreadyExists, h, s)) := by
  constructor
  · intro habs
    have e := Create_of_absent h s metaAddr now habs
    constructor
    · rw [e]
    · rw [e]
      rw [getValue_of_present _ _ _ h.cells.length
        (lookupFile_mapInsert_self s.files (h.read metaAddr).Filename
          h.cells.length)]
      show some (Heap.read ⟨h.cells.set metaAddr (fillTimes (h.read metaAddr) now) ++
        [fillTimes (h.read metaAddr) now]⟩ h.cells.length) = _
      have hlen := List.length_set h.cells metaAddr (fillTimes (h.read metaAddr) now)
      rw [← hlen, Heap.read_concat]
  · intro a hpres
    exact Create_of_present h s metaAddr now a hpres

/-- C5 witness at a concrete instance: on the empty store, creating the
record at address 0 of a one-cell heap succeeds and Get returns it with
both timestamps set to 5. -/
theorem create_get_semantics_witness :
    lookupFile ⟨[]⟩ (Heap.read ⟨[⟨"a", 3, 0, 0⟩]⟩ 0).Filename = none ∧
    getValue (InMemoryMetadataStore.Create ⟨[⟨"a", 3, 0, 0⟩]⟩ ⟨[]⟩ 0 5).2.1
        (InMemoryMetadataStore.Create ⟨[⟨"a", 3, 0, 0⟩]⟩ ⟨[]⟩ 0 5).2.2
        (Heap.read ⟨[⟨"a", 3, 0, 0⟩]⟩ 0).Filename =
      some (fillTimes (Heap.read ⟨[⟨"a", 3, 0, 0⟩]⟩ 0) 5) :=
  ⟨by decide,
   ((create_get_semantics ⟨[⟨"a", 3, 0, 0⟩]⟩ ⟨[]⟩ 0 5).1 (by decide)).2⟩


/-- C3 counterexample: after a successful Create (createdAt 10) a
successful Update with caller-supplied createdAt 99 changes the stored
createdAt to 99, contradicting the claim that createdAt keeps the value
assigned at the first successful Create regardless of what the caller
supplies to Update. -/
theorem update_changes_createdAt_counterexample :
    c3AfterCreate.1 = .ok () ∧
    getValue c3AfterCreate.2.1 c3AfterCreate.2.2 "f" = some ⟨"f", 1, 10, 10⟩ ∧
    c3AfterUpdate.1 = .ok () ∧
    getValue c3AfterUpdate.2.1 c3AfterUpdate.2.2 "f" = some ⟨"f", 1, 99, 20⟩ ∧
    (99 : Nat) ≠ 10 := by decide

/-- C3 amended: a successful Update overwrites the stored record with a
copy of the whole caller record, forcing only modifiedAt to now; in
particular the stored createdAt afterwards equals the caller-supplied
createdAt (so it is preserved only when the caller passes back the stored
value, as a Get-then-Update caller does). -/
theorem update_stores_callers_record (h : Heap) (s : InMemoryMetadataStore)
    (metaAddr now a : Nat)
    (hpres : lookupFile s (h.read metaAddr).Filename = some a) :
    (InMemoryMetadataStore.Update h s metaAddr now).1 = .ok () ∧
    getValue (InMemoryMetadataStore.Update h s metaAddr now).2.1
        (InMemoryMetadataStore.Update h s metaAddr now).2.2
        (h.read metaAddr).Filename =
      some { h.read metaAddr with ModifiedAt := now } := by
  have e := Update_of_present h s metaAddr now a hpres
  constructor
  · rw [e]
  · rw [e]
    rw [getValue_of_present _ _ _ h.cells.length
      (lookupFile_mapInsert_self s.files (h.read metaAddr).Filename
        h.cells.length)]
    show some (Heap.read ⟨h.cells.set metaAddr { h.read metaAddr with ModifiedAt := now } ++
      [{ h.read metaAddr with ModifiedAt := now }]⟩ h.cells.length) = _
    have hlen := List.length_set h.cells metaAddr
      { h.read metaAddr with ModifiedAt := now }
    rw [← hlen, Heap.read_concat]

/-- C3 amended witness at a concrete instance: updating the singleton
store through a caller record with createdAt 99 stores exactly that record
with modifiedAt forced to 20. -/
theorem update_stores_callers_record_witness :
    lookupFile ⟨[("f", 0)]⟩
      (Heap.read ⟨[⟨"f", 1, 10, 10⟩, ⟨"f", 1, 99, 0⟩]⟩ 1).Filename = some 0 ∧
    getValue (InMemoryMetadataStore.Update ⟨[⟨"f", 1, 10, 10⟩, ⟨"f", 1, 99, 0⟩]⟩
        ⟨[("f", 0)]⟩ 1 20).2.1
      (InMemoryMetadataStore.Update ⟨[⟨"f", 1, 10, 10⟩, ⟨"f", 1, 99, 0⟩]⟩
        ⟨[("f", 0)]⟩ 1 20).2.2
      (Heap.read ⟨[⟨"f", 1, 10, 10⟩, ⟨"f", 1, 99, 0⟩]⟩ 1).Filename =
      some { Heap.read ⟨[⟨"f", 1, 10, 10⟩, ⟨"f", 1, 99, 0⟩]⟩ 1 with ModifiedAt := 20 } :=
  ⟨by decide,
   (update_stores_callers_record ⟨[⟨"f", 1, 10, 10⟩, ⟨"f", 1, 99, 0⟩]⟩
     ⟨[("f", 0)]⟩ 1 20 0 (by decide)).2⟩

/-- C10: Create and Update mutate the caller record in place through the
passed pointer, not only the store.  On a successful Create the caller
cell afterwards holds the record with its zero timestamps assigned to now,
and the copy the store keeps lives at a different, freshly allocated
address; on a successful Update the caller cell afterwards holds the
record with modifiedAt overwritten to now. -/
theorem create_update_mutate_caller (h : Heap) (s : InMemoryMetadataStore)
    (metaAddr now : Nat) (hlt : metaAddr < h.cells.length) :
    (lookupFile s (h.read metaAddr).Filename = none →
      (InMemoryMetadataStore.Create h s metaAddr now).2.1.read metaAddr =
        fillTimes (h.read metaAddr) now ∧
      lookupFile (InMemoryMetadataStore.Create h s metaAddr now).2.2
          (h.read metaAddr).Filename = some h.cells.length ∧
      metaAddr ≠ h.cells.length) ∧
    (∀ a, lookupFile s (h.read metaAddr).Filename = some a →
      (InMemoryMetadataStore.Update h s metaAddr now).2.1.read metaAddr =
        { h.read metaAddr with ModifiedAt := now }) := by
  constructor
  · intro habs
    have e := Create_of_absent h s metaAddr now habs
    refine ⟨?_, ?_, Nat.ne_of_lt hlt⟩
    · rw [e]
      show Heap.read ⟨h.cells.set metaAddr (fillTimes (h.read metaAddr) now) ++
        [fillTimes (h.read metaAddr) now]⟩ metaAddr = _
      rw [Heap.read_append_of_lt _ _ _ (by rw [List.length_set]; exact hlt)]
      exact Heap.read_write_self h metaAddr _ hlt
    · rw [e]
      exact lookupFile_mapInsert_self s.files (h.read metaAddr).Filename
        h.cells.length
  · intro a hpres
    have e := Update_of_present h s metaAddr now a hpres
    rw [e]
    show Heap.read ⟨h.cells.set metaAddr { h.read metaAddr with ModifiedAt := now } ++
      [{ h.read metaAddr with ModifiedAt := now }]⟩ metaAddr = _
    rw [Heap.read_append_of_lt _ _ _ (by rw [List.length_set]; exact hlt)]
    exact Heap.read_write_self h metaAddr _ hlt

/-- C10 witness at a concrete instance: Create on the empty store through
address 0 of a one-cell heap writes the timestamps 4 into the caller cell
and stores the copy at the fresh address 1. -/
theorem create_update_mutate_caller_witness :
    0 < 1 ∧
    lookupFile ⟨[]⟩ (Heap.read ⟨[⟨"a", 2, 0, 0⟩]⟩ 0).Filename = none ∧
    (InMemoryMetadataStore.Create ⟨[⟨"a", 2, 0, 0⟩]⟩ ⟨[]⟩ 0 4).2.1.read 0 =
      fillTimes (Heap.read ⟨[⟨"a", 2, 0, 0⟩]⟩ 0) 4 :=
  ⟨by decide, by decide,
   (((create_update_mutate_caller ⟨[⟨"a", 2, 0, 0⟩]⟩ ⟨[]⟩ 0 4 (by decide)).1
     (by decide))).1⟩

/-- C7: for every store state and prefix string, List succeeds, and the
returned record copies are exactly those whose filename starts with the
prefix (in map iteration order); the empty prefix matches every stored
record, and a prefix matching nothing yields the empty sequence rather
than an error. -/
theorem list_returns_prefix_matches (h : Heap) (s : InMemoryMetadataStore)
    (pre : String) (hWF : StoreWF h s) :
    (∃ rs, (InMemoryMetadataStore.List h s pre).1 = .ok rs) ∧
    listValues h s pre =
      (s.files.filter (fun p => pre.data.isPrefixOf p.1.data)).map
        (fun p => h.read p.2) ∧
    (pre = "" → listValues h s pre = s.files.map (fun p => h.read p.2)) := by
  refine ⟨⟨(listFold pre s.files h []).2, by rw [List_eq_listFold]⟩, ?_, ?_⟩
  · rw [list_values_spec h s pre hWF]
    have e := List.filter_congr
      (fun (a : String × Nat) (_ : a ∈ s.files) =>
        goPrefixMatch_eq_isPrefixOf a.1 pre)
    rw [e]
  · intro hpre
    subst hpre
    rw [list_values_spec h s "" hWF]
    simp [goPrefixMatch]

/-- C7 witness at a concrete instance: a two-file store under a well-formed
heap, listed with prefix "a", yields exactly the record whose filename
starts with "a". -/
theorem list_returns_prefix_matches_witness :
    StoreWF ⟨[⟨"ab", 1, 2, 3⟩, ⟨"c", 4, 5, 6⟩]⟩ ⟨[("ab", 0), ("c", 1)]⟩ ∧
    listValues ⟨[⟨"ab", 1, 2, 3⟩, ⟨"c", 4, 5, 6⟩]⟩ ⟨[("ab", 0), ("c", 1)]⟩ "a" =
      (([("ab", 0), ("c", 1)] : List (String × Nat)).filter
          (fun p => "a".data.isPrefixOf p.1.data)).map
        (fun p => Heap.read ⟨[⟨"ab", 1, 2, 3⟩, ⟨"c", 4, 5, 6⟩]⟩ p.2) :=
  ⟨by decide,
   (list_returns_prefix_matches ⟨[⟨"ab", 1, 2, 3⟩, ⟨"c", 4, 5, 6⟩]⟩
     ⟨[("ab", 0), ("c", 1)]⟩ "a" (by decide)).2.1⟩

/-- C8: every record Get or List returns is a freshly allocated copy: in a
well-formed state, writing any value through the returned address changes
the outcome of no later Get or List (copy isolation). -/
theorem get_list_copy_isolation (h : Heap) (s : InMemoryMetadataStore)
    (hWF : StoreWF h s) :
    (∀ f r h1, InMemoryMetadataStore.Get h s f = (.ok r, h1) →
      ∀ v g pre2,
        getValue (h1.write r v) s g = getValue h1 s g ∧
        listValues (h1.write r v) s pre2 = listValues h1 s pre2) ∧
    (∀ pre rs h1, InMemoryMetadataStore.List h s pre = (.ok rs, h1) →
      ∀ r, r ∈ rs →
        ∀ v g pre2,
          getValue (h1.write r v) s g = getValue h1 s g ∧
          listValues (h1.write r v) s pre2 = listValues h1 s pre2) := by
  constructor
  · intro f r h1 hget v g pre2
    cases hlook : lookupFile s f with
    | none =>
      rw [Get_of_absent h s f hlook] at hget
      exact absurd hget (by simp)
    | some a =>
      rw [Get_of_present h s f a hlook] at hget
      simp only [Prod.mk.injEq, Except.ok.injEq] at hget
      obtain ⟨hr, hh1⟩ := hget
      have hfresh : ∀ p ∈ s.files, p.2 ≠ r := by
        intro p hp
        rw [← hr]
        exact Nat.ne_of_lt (hWF p hp)
      have hWF1 : StoreWF h1 s := by
        intro p hp
        rw [← hh1]
        show p.2 < (h.cells ++ [h.read a]).length
        have := hWF p hp
        simp
        omega
      exact ⟨getValue_write_fresh h1 s r v hfresh g,
        listValues_write_fresh h1 s r v pre2 hWF1 hfresh⟩
  · intro pre rs h1 hlist r hr v g pre2
    rw [List_eq_listFold] at hlist
    simp only [Prod.mk.injEq, Except.ok.injEq] at hlist
    obtain ⟨hrs, hh1⟩ := hlist
    obtain ⟨ih1, -, ih3, -, -⟩ := listFold_spec pre s.files h [] hWF (by simp)
    have hge : h.cells.length ≤ r := by
      rcases ih3 r (by rw [hrs]; exact hr) with hc | hc
      · simp at hc
      · exact hc
    have hfresh : ∀ p ∈ s.files, p.2 ≠ r := fun p hp =>
      Nat.ne_of_lt (lt_of_lt_of_le (hWF p hp) hge)
    have hWF1 : StoreWF h1 s := by
      intro p hp
      rw [← hh1]
      exact lt_of_lt_of_le (hWF p hp) ih1
    exact ⟨getValue_write_fresh h1 s r v hfresh g,
      listValues_write_fresh h1 s r v pre2 hWF1 hfresh⟩

/-- C8 witness at a concrete instance: on a well-formed one-record state,
Get returns the fresh address 1, and overwriting that copy leaves a later
Get of the same filename unchanged. -/
theorem get_list_copy_isolation_witness :
    StoreWF ⟨[⟨"a", 1, 2, 3⟩]⟩ ⟨[("a", 0)]⟩ ∧
    InMemoryMetadataStore.Get ⟨[⟨"a", 1, 2, 3⟩]⟩ ⟨[("a", 0)]⟩ "a" =
      (.ok 1, ⟨[⟨"a", 1, 2, 3⟩, ⟨"a", 1, 2, 3⟩]⟩) ∧
    getValue ((⟨[⟨"a", 1, 2, 3⟩, ⟨"a", 1, 2, 3⟩]⟩ : Heap).write 1 ⟨"x", 9, 9, 9⟩)
        ⟨[("a", 0)]⟩ "a" =
      getValue ⟨[⟨"a", 1, 2, 3⟩, ⟨"a", 1, 2, 3⟩]⟩ ⟨[("a", 0)]⟩ "a" :=
  ⟨by decide, by decide,
   (((get_list_copy_isolation ⟨[⟨"a", 1, 2, 3⟩]⟩ ⟨[("a", 0)]⟩ (by decide)).1
     "a" 1 ⟨[⟨"a", 1, 2, 3⟩, ⟨"a", 1, 2, 3⟩]⟩ (by decide) ⟨"x", 9, 9, 9⟩ "a" "")).1⟩

/-- C6: for a filename absent from the store, Stat answers with
exists=false and no error, Delete answers with success=false and no error,
and both leave every piece of state untouched, while Download returns a
file-not-found error to the caller having sent no message at all. -/
theorem absent_file_responses (f : String) (fs : FS) (h : Heap)
    (s : InMemoryMetadataStore) (habs : lookupFile s f = none) :
    Server.Stat f h s = (.ok ⟨false, none⟩, h) ∧
    Server.Delete f fs h s =
      (.ok ⟨false, "file not found: " ++ f⟩, fs, h, s) ∧
    Server.Download f fs h s = (.error .fileNotFound, [], h) :=
  ⟨Stat_absent f h s habs, Delete_absent f fs h s habs,
   Download_absent f fs h s habs⟩

/-- C6 witness at a concrete instance: on the empty state, Download of an
absent filename errors with no message sent. -/
theorem absent_file_responses_witness :
    lookupFile ⟨[]⟩ "x" = none ∧
    Server.Download "x" [] ⟨[]⟩ ⟨[]⟩ = (.error .fileNotFound, [], ⟨[]⟩) :=
  ⟨by decide, (absent_file_responses "x" [] ⟨[]⟩ ⟨[]⟩ (by decide)).2.2⟩

/-- C9: an Upload stream that reaches end-of-stream before any message is
not treated as a protocol violation: the server finalises with the zero
values and calls Create with the empty filename and size 0.  The first
such upload commits a record with empty filename (timestamps set to now)
and touches no blob; any later one fails with AlreadyExists wrapped in the
metadata-create error. -/
theorem upload_empty_stream (faults : Faults) (fs : FS) (h : Heap)
    (s : InMemoryMetadataStore) (now : Nat) :
    (lookupFile s "" = none →
      (Server.Upload faults [] false fs h s now).1 =
        .ok ⟨true, "File " ++ "" ++ " uploaded successfully", ""⟩ ∧
      (Server.Upload faults [] false fs h s now).2.1 = fs ∧
      getValue (Server.Upload faults [] false fs h s now).2.2.1
        (Server.Upload faults [] false fs h s now).2.2.2 "" =
        some ⟨"", 0, now, now⟩) ∧
    (∀ a, lookupFile s "" = some a →
      (Server.Upload faults [] false fs h s now).1 =
        .error (.metadataCreateFailed .fileAlreadyExists)) := by
  have hread : Heap.read ⟨h.cells ++ [⟨"", 0, 0, 0⟩]⟩ h.cells.length =
      ⟨"", 0, 0, 0⟩ := Heap.read_concat h.cells ⟨"", 0, 0, 0⟩
  constructor
  · intro habs
    have e := Create_of_absent ⟨h.cells ++ [⟨"", 0, 0, 0⟩]⟩ s h.cells.length now
      (by rw [hread]; exact habs)
    unfold Server.Upload
    simp only [uploadLoop, Bool.false_eq_true, if_false, Option.isSome_none,
      Bool.false_and, Heap.alloc]
    rw [e]
    simp only [hread]
    refine ⟨trivial, trivial, ?_⟩
    rw [getValue_of_present _ _ _
      ((h.cells ++ [(⟨"", 0, 0, 0⟩ : FileMeta)]).length)
      (lookupFile_mapInsert_self s.files ""
        ((h.cells ++ [(⟨"", 0, 0, 0⟩ : FileMeta)]).length))]
    show some (Heap.read ⟨(h.cells ++ [(⟨"", 0, 0, 0⟩ : FileMeta)]).set h.cells.length
      (fillTimes (⟨"", 0, 0, 0⟩ : FileMeta) now) ++
        [fillTimes (⟨"", 0, 0, 0⟩ : FileMeta) now]⟩
      ((h.cells ++ [(⟨"", 0, 0, 0⟩ : FileMeta)]).length)) = _
    rw [set_concat_self h.cells (⟨"", 0, 0, 0⟩ : FileMeta)
      (fillTimes (⟨"", 0, 0, 0⟩ : FileMeta) now)]
    have hlen : (h.cells ++ [(⟨"", 0, 0, 0⟩ : FileMeta)]).length =
        (h.cells ++ [fillTimes (⟨"", 0, 0, 0⟩ : FileMeta) now]).length := by simp
    rw [hlen, Heap.read_concat]
    simp [fillTimes]
  · intro a hpres
    have e := Create_of_present ⟨h.cells ++ [⟨"", 0, 0, 0⟩]⟩ s h.cells.length now a
      (by rw [hread]; exact hpres)
    unfold Server.Upload
    simp only [uploadLoop, Bool.false_eq_true, if_false, Option.isSome_none,
      Bool.false_and, Heap.alloc]
    rw [e]

/-- C9 witness at a concrete instance: the zero-message upload on the
empty state commits the record with empty filename and size 0. -/
theorem upload_empty_stream_witness :
    lookupFile ⟨[]⟩ "" = none ∧
    getValue (Server.Upload noFaults [] false [] ⟨[]⟩ ⟨[]⟩ 3).2.2.1
      (Server.Upload noFaults [] false [] ⟨[]⟩ ⟨[]⟩ 3).2.2.2 "" =
      some ⟨"", 0, 3, 3⟩ :=
  ⟨by decide, ((upload_empty_stream noFaults [] ⟨[]⟩ ⟨[]⟩ 3).1 (by decide)).2.2⟩


/-- C1 counterexample: the upload commits, the blob holds the 3 bytes
actually written, yet the stored record carries size 5 — the declared
size from the metadata message, not the number of bytes written. -/
theorem upload_size_counterexample :
    c1run.1 = .ok ⟨true, "File a uploaded successfully", "a"⟩ ∧
    fsLookup c1run.2.1 "a" = some [1, 2, 3] ∧
    getValue c1run.2.2.1 c1run.2.2.2 "a" = some ⟨"a", 5, 7, 7⟩ ∧
    ¬ (5 : Int) = 3 := by decide

/-- C1 amended: when an Upload stream completes normally for a fresh valid
filename, the committed record's size equals the size declared in the
metadata message, whatever bytes the chunks carried; the bytes actually
written are exactly the concatenated chunk payloads, observable in the
blob. -/
theorem upload_stores_declared_size (f : String) (sz : Int)
    (cs : List (List Nat)) (fs : FS) (h : Heap) (s : InMemoryMetadataStore)
    (now : Nat) (hvalid : pathBase f.data = f.data)
    (hfresh : lookupFile s f = none) :
    (Server.Upload noFaults (UploadReq.metadata f sz :: cs.map UploadReq.chunk)
        false fs h s now).1 =
      .ok ⟨true, "File " ++ f ++ " uploaded successfully", f⟩ ∧
    getValue
      (Server.Upload noFaults (UploadReq.metadata f sz :: cs.map UploadReq.chunk)
        false fs h s now).2.2.1
      (Server.Upload noFaults (UploadReq.metadata f sz :: cs.map UploadReq.chunk)
        false fs h s now).2.2.2 f =
      some ⟨f, sz, now, now⟩ ∧
    fsLookup (Server.Upload noFaults
        (UploadReq.metadata f sz :: cs.map UploadReq.chunk)
        false fs h s now).2.1 f = some cs.flatten := by
  have e := Upload_ok f sz cs fs h s now hvalid hfresh
  refine ⟨by rw [e], ?_, ?_⟩
  · rw [e]
    rw [getValue_of_present _ _ _ (h.cells.length + 1)
      (lookupFile_mapInsert_self s.files f (h.cells.length + 1))]
    rw [Heap.read_concat2]
  · rw [e]
    show fsLookup (cs.foldl (fun a c => fsAppend a f c) (osCreate fs f)) f = _
    rw [fsLookup_foldl_fsAppend f cs (osCreate fs f), fsLookup_osCreate_self]
    simp

/-- C1 amended witness at a concrete instance: declared size 5 with three
bytes sent gives a record of size 5 and a blob of the three bytes. -/
theorem upload_stores_declared_size_witness :
    pathBase "a".data = "a".data ∧
    lookupFile ⟨[]⟩ "a" = none ∧
    getValue (Server.Upload noFaults
        [UploadReq.metadata "a" 5, UploadReq.chunk [1, 2, 3]]
        false [] ⟨[]⟩ ⟨[]⟩ 7).2.2.1
      (Server.Upload noFaults
        [UploadReq.metadata "a" 5, UploadReq.chunk [1, 2, 3]]
        false [] ⟨[]⟩ ⟨[]⟩ 7).2.2.2 "a" =
      some ⟨"a", 5, 7, 7⟩ :=
  ⟨by decide, by decide,
   (upload_stores_declared_size "a" 5 [[1, 2, 3]] [] ⟨[]⟩ ⟨[]⟩ 7
     (by decide) (by decide)).2.1⟩


/-- C2 counterexample: when File.Close fails after the blob was created
and written, the server returns the error without deleting the blob — the
partially complete blob for "a" is still present in the backend,
contradicting the claim that every post-creation failure deletes it. -/
theorem upload_close_failure_keeps_blob_counterexample :
    c2run.1 = .error .closeFailed ∧
    fsLookup c2run.2.1 "a" = some [7] := by decide

/-- C2 amended: for an upload of a valid filename in which os.Create
succeeds and File.Close does not fail, every failure (transport error,
chunk-write failure at any position, or Create failing in the metadata
store) leaves no blob under that filename and leaves the metadata store
exactly as it was; a blob-close failure is the one path that leaks the
blob. -/
theorem upload_failure_cleanup (faults : Faults) (recvErr : Bool)
    (f : String) (sz : Int) (cs : List (List Nat)) (fs : FS) (h : Heap)
    (s : InMemoryMetadataStore) (now : Nat) (e : UploadErr) (fs1 : FS)
    (h1 : Heap) (s1 : InMemoryMetadataStore)
    (hvalid : pathBase f.data = f.data)
    (hcreate : faults.createFileFails = false)
    (hclose : faults.closeFails = false)
    (hrun : Server.Upload faults
        (UploadReq.metadata f sz :: cs.map UploadReq.chunk) recvErr fs h s now =
      (.error e, fs1, h1, s1)) :
    fsLookup fs1 f = none ∧ s1 = s :=
  Upload_err_clean faults recvErr f sz cs fs h s now e fs1 h1 s1
    hvalid hcreate hclose hrun

/-- C2 amended witness at a concrete instance: a write failure on the
first chunk aborts the upload with the blob removed and the store
untouched. -/
theorem upload_failure_cleanup_witness :
    pathBase "a".data = "a".data ∧
    fsLookup ([] : FS) "a" = none :=
  ⟨by decide,
   (upload_failure_cleanup ⟨false, some 0, false⟩ false "a" 2 [[5]] [] ⟨[]⟩
     ⟨[]⟩ 0 .writeChunkFailed [] ⟨[]⟩ ⟨[]⟩ (by decide) rfl rfl (by decide)).1⟩

/-- C4: uploading the byte sequence B under a fresh valid filename, as any
split of B into chunk messages, and then downloading that filename yields
a stream that starts with the metadata message and then carries the chunks
of B in file order, whose payloads concatenate back to exactly B.  The
statement quantifies over every split and every byte sequence, so all the
boundary sizes (0, 1, around the chunk size, non-multiples) are
instances. -/
theorem upload_download_roundtrip (f : String) (sz : Int) (B : List Nat)
    (cs : List (List Nat)) (fs : FS) (h : Heap) (s : InMemoryMetadataStore)
    (now : Nat) (resp : UploadResponse) (fs1 : FS) (h1 : Heap)
    (s1 : InMemoryMetadataStore)
    (hvalid : pathBase f.data = f.data) (hfresh : lookupFile s f = none)
    (hsplit : cs.flatten = B)
    (hup : Server.Upload noFaults
        (UploadReq.metadata f sz :: cs.map UploadReq.chunk) false fs h s now =
      (.ok resp, fs1, h1, s1)) :
    (Server.Download f fs1 h1 s1).1 = .ok () ∧
    (Server.Download f fs1 h1 s1).2.1 =
      DownloadMsg.metadata f sz ::
        (chunksOf defaultChunkSize B).map DownloadMsg.chunk ∧
    downloadBytes (Server.Download f fs1 h1 s1).2.1 = B := by
  have e := Upload_ok f sz cs fs h s now hvalid hfresh
  rw [e] at hup
  simp only [Prod.mk.injEq, Except.ok.injEq] at hup
  obtain ⟨-, hfs1, hh1, hs1⟩ := hup
  subst hfs1
  subst hh1
  subst hs1
  have hlook : lookupFile ⟨mapInsert s.files f (h.cells.length + 1)⟩ f =
      some (h.cells.length + 1) :=
    lookupFile_mapInsert_self s.files f (h.cells.length + 1)
  have hfs : fsLookup (cs.foldl (fun a c => fsAppend a f c) (osCreate fs f)) f =
      some B := by
    rw [fsLookup_foldl_fsAppend f cs (osCreate fs f), fsLookup_osCreate_self]
    simp [hsplit]
  have hd := Download_found f B
    (cs.foldl (fun a c => fsAppend a f c) (osCreate fs f))
    ⟨h.cells ++ [⟨f, sz, now, now⟩, ⟨f, sz, now, now⟩]⟩
    ⟨mapInsert s.files f (h.cells.length + 1)⟩
    (h.cells.length + 1) hlook hfs
  rw [Heap.read_concat2 h.cells ⟨f, sz, now, now⟩ ⟨f, sz, now, now⟩] at hd
  refine ⟨by rw [hd], by rw [hd], ?_⟩
  rw [hd]
  show downloadBytes (DownloadMsg.metadata f sz ::
    (chunksOf defaultChunkSize B).map DownloadMsg.chunk) = B
  rw [downloadBytes_msgs]
  exact chunksOf_flatten defaultChunkSize (by decide) B

/-- C4 witness at a concrete instance: the bytes [1, 2] uploaded as two
one-byte chunks download back as exactly [1, 2]. -/
theorem upload_download_roundtrip_witness :
    pathBase "a".data = "a".data ∧
    ([[1], [2]] : List (List Nat)).flatten = [1, 2] ∧
    downloadBytes (Server.Download "a" [("a", [1, 2])]
      ⟨[⟨"a", 2, 0, 0⟩, ⟨"a", 2, 0, 0⟩]⟩ ⟨[("a", 1)]⟩).2.1 = [1, 2] :=
  ⟨by decide, by decide,
   (upload_download_roundtrip "a" 2 [1, 2] [[1], [2]] [] ⟨[]⟩ ⟨[]⟩ 0
     ⟨true, "File a uploaded successfully", "a"⟩ [("a", [1, 2])]
     ⟨[⟨"a", 2, 0, 0⟩, ⟨"a", 2, 0, 0⟩]⟩ ⟨[("a", 1)]⟩
     (by decide) (by decide) (by decide) (by decide)).2.2⟩
